import Mathlib

/-
Verification of the textstream incremental decoding reader.

This file gives a shallow embedding of `src/lib.rs` (the `TextReader`
struct with its `_read`, `read_to_end`, `read_line` operations and the
`Lines` iterator) and proves properties of it.

Text buffers are lists of UTF-8 code units (`List Nat`), matching Rust's
`String` whose `len`, `truncate` and `memchr`-based newline search all
operate on UTF-8 bytes.  The byte source is a list of read events (a
chunk of bytes or an I/O error kind); an exhausted source yields empty
reads, like a Rust reader at EOF.

The stateful decoder and the recovery policy are external collaborators
of the library (the `encoding` crate's `RawDecoder` and `DecoderTrap`);
they are modelled from the specification's collaborator contracts, as a
concrete Shift_JIS-style instance (see `feedGo` below).
-/

set_option maxRecDepth 100000

namespace Textstream

/-- Error kinds of the byte source, mirroring `std::io::ErrorKind` as far
as the library distinguishes them. -/
inductive ErrKind where
  | Interrupted
  | UnexpectedEof
  | Other
deriving DecidableEq, Repr

/-- The library's error type (`enum Error` in `src/lib.rs`). -/
inductive Error where
  | IOError (k : ErrKind)
  | CodecError (cause : String)
deriving DecidableEq, Repr

/-- `CHUNK_SIZE` constant from `src/lib.rs`. -/
def CHUNK_SIZE : Nat := 2048

/-- `ERR_INCOMPLETE_SEQ` constant from `src/lib.rs`. -/
def ERR_INCOMPLETE_SEQ : String := "incomplete sequence"

/-- An event of the byte source: one chunk of bytes delivered by a
successful `read`, or an I/O error raised by one `read` call. -/
inductive ReadEvent where
  | chunk (bs : List Nat)
  | ioerr (k : ErrKind)
deriving DecidableEq, Repr

/-- One bounded `read` call on the byte source: delivers at most `cap`
bytes of the front event.  An exhausted source reads zero bytes (EOF),
like a Rust reader. -/
def readSrc : List ReadEvent → Nat → (Except ErrKind (List Nat)) × List ReadEvent
  | [], _ => (.ok [], [])
  | .ioerr k :: rest, _ => (.error k, rest)
  | .chunk bs :: rest, cap =>
      if bs.length ≤ cap then (.ok bs, rest)
      else (.ok (bs.take cap), .chunk (bs.drop cap) :: rest)

/-- UTF-8 code units of a scalar value below `0x10000`. -/
def utf8Bytes (cp : Nat) : List Nat :=
  if cp < 0x80 then [cp]
  else if cp < 0x800 then [0xC0 + cp / 64, 0x80 + cp % 64]
  else [0xE0 + cp / 4096, 0x80 + cp / 64 % 64, 0x80 + cp % 64]

/-- Shift_JIS lead bytes of two-byte sequences. -/
def isSjisLead (b : Nat) : Bool := (0x81 ≤ b && b ≤ 0x9F) || (0xE0 ≤ b && b ≤ 0xEF)

/-- Shift_JIS trail bytes of two-byte sequences. -/
def isSjisTrail (b : Nat) : Bool := (0x40 ≤ b && b ≤ 0x7E) || (0x80 ≤ b && b ≤ 0xFC)

/-- Shift_JIS single-byte half-width katakana. -/
def isSjisKana (b : Nat) : Bool := 0xA1 ≤ b && b ≤ 0xDF

/-- Scalar value of a Shift_JIS two-byte sequence.  The hiragana row
(lead `0x82`) is mapped exactly (`0x82A0` = U+3042 "あ", ...); other
rows are mapped deterministically into the CJK block, which suffices for
every property below (all that matters elsewhere is that a two-byte
character decodes to a scalar value of its own that is at least `0x800`,
so its UTF-8 form never contains a `0x0A` byte). -/
def sjisDouble (l t : Nat) : Nat :=
  if l = 0x82 && 0x9F ≤ t && t ≤ 0xF1 then 0x3041 + (t - 0x9F)
  else 0x4E00 + (l * 256 + t) % 0x2000

/-- Error report of the decoder, mirroring `encoding::CodecError`:
`upto` is the end of the offending byte range, relative to the bytes fed
in the current call; `cause` is the diagnostic. -/
structure CodecErr where
  upto : Nat
  cause : String
deriving DecidableEq, Repr

/-- Result of one `raw_feed` call: the number of leading bytes consumed,
an optional error report, the decoder state after the call, and the
decoded text appended to the output. -/
structure FeedResult where
  consumed : Nat
  err : Option CodecErr
  dst : Option Nat
  out : List Nat
deriving DecidableEq, Repr

/-- Modelled from the spec: the stateful decoder collaborator
(`feed(bytes, outputText) -> (consumedCount, optionalErrorRange)`), as a
Shift_JIS-style instance.  The decoder state is the dangling lead byte
of a two-byte sequence, if any, so that multi-byte sequences can span
chunk boundaries.  `pos` is the index of the next input byte within the
bytes fed by the current call; `cons` is the number of leading bytes
fully consumed so far (updated on each completed character).  On an
invalid sequence the decoder reports the offending range
`[cons, pos+1)` and abandons the broken sequence.  When input runs out,
everything fed has been consumed (a dangling lead moves into the
decoder state). -/
def feedGo (dst : Option Nat) (inp : List Nat) (pos cons : Nat) : FeedResult :=
  match dst, inp with
  | d, [] => ⟨pos, none, d, []⟩
  | none, b :: rest =>
      if b < 0x80 then
        let r := feedGo none rest (pos + 1) (pos + 1)
        { r with out := b :: r.out }
      else if isSjisKana b then
        let r := feedGo none rest (pos + 1) (pos + 1)
        { r with out := utf8Bytes (0xFF61 + (b - 0xA1)) ++ r.out }
      else if isSjisLead b then
        feedGo (some b) rest (pos + 1) cons
      else ⟨cons, some ⟨pos + 1, "invalid sequence"⟩, none, []⟩
  | some l, b :: rest =>
      if isSjisTrail b then
        let r := feedGo none rest (pos + 1) (pos + 1)
        { r with out := utf8Bytes (sjisDouble l b) ++ r.out }
      else ⟨cons, some ⟨pos + 1, "invalid sequence"⟩, none, []⟩

/-- `raw_feed` of the modelled decoder. -/
def rawFeed (dst : Option Nat) (bytes : List Nat) : FeedResult :=
  feedGo dst bytes 0 0

/-- Modelled from the spec: `finish(outputText) -> optionalError` of the
decoder collaborator.  A dangling lead byte in the decoder state is
reported as the distinguished "incomplete sequence" condition; the state
persists so that later bytes can still complete the sequence (this is
what makes multi-byte sequences span chunk boundaries, and is the
behaviour the repository's own tests exercise). -/
def rawFinish (dst : Option Nat) : Option CodecErr :=
  match dst with
  | some _ => some ⟨0, ERR_INCOMPLETE_SEQ⟩
  | none => none

/-- Modelled from the spec: the recovery policy collaborator
(`handle(decoderState, offendingBytes, outputText) -> handled`).  Given
the offending bytes it either declines (`none`) or recovers, returning
the substitute text it appends to the output. -/
def Trap : Type := List Nat → Option (List Nat)

/-- `DecoderTrap::Strict`: always decline. -/
def strictTrap : Trap := fun _ => none

/-- A recovery policy that appends the bytes it was handed as text —
a legal `DecoderTrap::Call` policy that makes the byte range actually
passed to the trap observable in the output buffer. -/
def echoTrap : Trap := fun bs => some bs

/-- The `TextReader` state (`struct TextReader` in `src/lib.rs`): the
byte source, the decoder state, the pending-text carry-over with its
completeness flag, and the chunk buffer. -/
structure TextReader where
  source : List ReadEvent
  dstate : Option Nat
  textbuf : List Nat
  textbuf_completeseq : Bool
  binbuf : List Nat
deriving DecidableEq, Repr

/-- A fresh `TextReader` over the given byte source
(`TextReader::new`). -/
def initTR (src : List ReadEvent) : TextReader :=
  ⟨src, none, [], true, []⟩

deriving instance DecidableEq for Except

/-- The finalisation tail of `_read` (`src/lib.rs` lines 166-179): call
`raw_finish`; an "incomplete sequence" report makes the step return
`Ok(false)`; any other finish error is routed through the trap, and on
decline the call fails after dropping `upto - offset` bytes.  The trap
slice and the drop use `List.take`/`List.drop`, which clamp where the
Rust slice and subtraction would panic; the modelled decoder's
`raw_finish` reports only "incomplete sequence", so this trap branch is
never reached, and no theorem relies on it. -/
def readFinish (trap : Trap) (offset : Nat) (st : TextReader) (s : List Nat) :
    Except Error Bool × TextReader × List Nat :=
  match rawFinish st.dstate with
  | none => (.ok true, st, s)
  | some e =>
      if e.cause = ERR_INCOMPLETE_SEQ then (.ok false, st, s)
      else
        match trap (st.binbuf.take e.upto) with
        | some t => (.ok true, st, s ++ t)
        | none =>
            (.error (.CodecError e.cause),
             { st with binbuf := if e.upto > 0 then st.binbuf.drop (e.upto - offset) else st.binbuf },
             s)

/-- `TextReader::_read` (`src/lib.rs` lines 132-180).  Mirrors the
source line by line: drain `textbuf` if non-empty; otherwise top the
chunk buffer up with one bounded read (note that on a read error the
buffer has already been resized to `CHUNK_SIZE` zero-filled bytes and
the truncation is skipped by the early return, exactly as in the
source); feed the whole chunk buffer to the decoder; drop the consumed
prefix; route a reported error through the trap — the slice handed to
the trap is `binbuf[..upto]` of the already-shifted buffer, as in the
source; finally run `raw_finish`.  One caveat: the slice is modelled
with `List.take`, which clamps where the Rust index `binbuf[..upto]`
panics (`upto` beyond the shifted buffer, i.e. `consumed + upto` past
the fed bytes); theorems about error returns stay on inputs where
`upto` is in bounds, so `take` and the slice coincide there. -/
def _read (trap : Trap) (st : TextReader) (s : List Nat) :
    Except Error Bool × TextReader × List Nat :=
  if st.textbuf.length > 0 then
    (.ok st.textbuf_completeseq,
     { st with textbuf := [], textbuf_completeseq := true },
     s ++ st.textbuf)
  else
    match (if st.binbuf.length < CHUNK_SIZE then
             match readSrc st.source (CHUNK_SIZE - st.binbuf.length) with
             | (.error k, src') =>
                 .error ({ st with
                             source := src',
                             binbuf := st.binbuf ++ List.replicate (CHUNK_SIZE - st.binbuf.length) 0 }, k)
             | (.ok bs, src') =>
                 .ok { st with source := src', binbuf := st.binbuf ++ bs }
           else .ok st : Except (TextReader × ErrKind) TextReader) with
    | .error (st', k) => (.error (.IOError k), st', s)
    | .ok st1 =>
        let r := rawFeed st1.dstate st1.binbuf
        let s2 := s ++ r.out
        let offset := r.consumed
        let binbuf2 :=
          if offset > 0 then
            (if offset < st1.binbuf.length then st1.binbuf.drop offset else [])
          else st1.binbuf
        let st2 := { st1 with dstate := r.dst, binbuf := binbuf2 }
        match r.err with
        | none => readFinish trap offset st2 s2
        | some e =>
            match trap (binbuf2.take e.upto) with
            | none => (.error (.CodecError e.cause), st2, s2)
            | some t =>
                let st3 := { st2 with
                               binbuf := if e.upto - offset > 0 then binbuf2.drop (e.upto - offset) else binbuf2 }
                readFinish trap offset st3 (s2 ++ t)

/-- The loop of `TextReader::read_to_end` (`src/lib.rs` lines 206-222),
with explicit fuel; `none` means the fuel ran out before the loop
returned. -/
def readToEndLoop (trap : Trap) (fuel : Nat) (st : TextReader) (buf : List Nat)
    (nstrlen lastlen : Nat) :
    Option (Except Error Nat × TextReader × List Nat) :=
  match fuel with
  | 0 => none
  | fuel + 1 =>
      match _read trap st buf with
      | (.error (.IOError .Interrupted), st', buf') =>
          readToEndLoop trap fuel st' buf' nstrlen lastlen
      | (.error e, st', buf') => some (.error e, st', buf')
      | (.ok complete, st', buf') =>
          if buf'.length = lastlen then
            if complete then some (.ok (lastlen - nstrlen), st', buf')
            else some (.error (.CodecError ERR_INCOMPLETE_SEQ), st', buf')
          else readToEndLoop trap fuel st' buf' nstrlen buf'.length

/-- `TextReader::read_to_end` (`src/lib.rs` lines 203-223). -/
def readToEnd (trap : Trap) (fuel : Nat) (st : TextReader) (buf : List Nat) :
    Option (Except Error Nat × TextReader × List Nat) :=
  readToEndLoop trap fuel st buf buf.length buf.length

/-- `memchr(b, buf)`: index of the first occurrence of `b`. -/
def memchr (b : Nat) : List Nat → Option Nat
  | [] => none
  | x :: xs => if x = b then some 0 else (memchr b xs).map (· + 1)

/-- The loop of `TextReader::read_line` (`src/lib.rs` lines 249-285),
with explicit fuel.  One iteration: run `_read`, search the newly
appended region for a line feed; if found, move any excess past the
line feed into `textbuf` (with the completeness flag set from this
step's result exactly as in the source) and return; otherwise dispatch
on the step's result. -/
def readLineLoop (trap : Trap) (fuel : Nat) (st : TextReader) (buf : List Nat)
    (nstrlen lastlen : Nat) :
    Option (Except Error Nat × TextReader × List Nat) :=
  match fuel with
  | 0 => none
  | fuel + 1 =>
      match _read trap st buf with
      | (result, st1, buf1) =>
          let newlen := buf1.length
          match memchr 10 (buf1.drop lastlen) with
          | some n =>
              if lastlen + n + 1 < newlen then
                some (.ok (lastlen + n + 1 - nstrlen),
                      { st1 with
                          textbuf := buf1.drop (lastlen + n + 1),
                          textbuf_completeseq :=
                            match result with
                            | .error (.CodecError c) => c = ERR_INCOMPLETE_SEQ
                            | _ => false },
                      buf1.take (lastlen + n + 1))
              else some (.ok (lastlen + n + 1 - nstrlen), st1, buf1)
          | none =>
              match result with
              | .error (.IOError .Interrupted) =>
                  readLineLoop trap fuel st1 buf1 nstrlen newlen
              | .error (.IOError .UnexpectedEof) =>
                  some (.ok (newlen - nstrlen), st1, buf1)
              | .error e => some (.error e, st1, buf1)
              | .ok _ =>
                  if lastlen = newlen then some (.ok (newlen - nstrlen), st1, buf1)
                  else readLineLoop trap fuel st1 buf1 nstrlen newlen

/-- `TextReader::read_line` (`src/lib.rs` lines 246-286). -/
def readLine (trap : Trap) (fuel : Nat) (st : TextReader) (buf : List Nat) :
    Option (Except Error Nat × TextReader × List Nat) :=
  readLineLoop trap fuel st buf buf.length buf.length

/-- Terminator stripping of `Lines::next`: pop one trailing line feed,
then a preceding carriage return. -/
def stripLine (s : List Nat) : List Nat :=
  if s.getLast? = some 10 then
    (if s.dropLast.getLast? = some 13 then s.dropLast.dropLast else s.dropLast)
  else s

/-- `Lines::next` (`src/lib.rs` lines 305-326): read one line into a
fresh buffer; on success yield the stripped line, or end the iteration
(`none` item) if the produced text is empty; on error yield the error.
The outer `none` means the fuel ran out. -/
def linesNext (trap : Trap) (fuel : Nat) (st : TextReader) :
    Option (Option (Except Error (List Nat)) × TextReader) :=
  match readLine trap fuel st [] with
  | none => none
  | some (.ok _, st', s) =>
      if s.length > 0 then some (some (.ok (stripLine s)), st')
      else some (none, st')
  | some (.error e, st', _) => some (some (.error e), st')

/-- Collect at most `k` items from the `Lines` iterator, stopping when
the iterator ends. -/
def linesCollect (trap : Trap) (fuel : Nat) (k : Nat) (st : TextReader) :
    Option (List (Except Error (List Nat)) × TextReader) :=
  match k with
  | 0 => some ([], st)
  | k + 1 =>
      match linesNext trap fuel st with
      | none => none
      | some (none, st') => some ([], st')
      | some (some item, st') =>
          match linesCollect trap fuel k st' with
          | none => none
          | some (items, st'') => some (item :: items, st'')

/-- Results and appended texts of `k` successive `read_line` calls, each
into a fresh buffer. -/
def readLineCalls (trap : Trap) (fuel : Nat) (k : Nat) (st : TextReader) :
    Option (List (Except Error Nat × List Nat) × TextReader) :=
  match k with
  | 0 => some ([], st)
  | k + 1 =>
      match readLine trap fuel st [] with
      | none => none
      | some (r, st', s) =>
          match readLineCalls trap fuel k st' with
          | none => none
          | some (rs, st'') => some ((r, s) :: rs, st'')

/-- The decoded text of a byte sequence fed in one piece from the
initial decoder state. -/
def decodeOut (input : List Nat) : List Nat :=
  (rawFeed none input).out

/-- A byte sequence that the decoder consumes without error and without
a dangling partial character: a complete, valid input. -/
def validB (input : List Nat) : Bool :=
  (rawFeed none input).err.isNone && (rawFeed none input).dst.isNone

/-- The Shift_JIS bytes of "あいうえお" used by the repository's tests. -/
def sjisAiueo : List Nat := [0x82, 0xA0, 0x82, 0xA2, 0x82, 0xA4, 0x82, 0xA6, 0x82, 0xA8]

/-- The UTF-8 code units of "あいうえお" (15 units: three per character). -/
def aiueoUtf8 : List Nat :=
  [0xE3, 0x81, 0x82, 0xE3, 0x81, 0x84, 0xE3, 0x81, 0x86, 0xE3, 0x81, 0x88, 0xE3, 0x81, 0x8A]

/-- Split a text into line-feed-delimited segments, each keeping its
terminator byte(s); the final element is the unterminated remainder
(possibly empty).  Fuel-driven; `t.length` fuel always suffices since
every split consumes at least one byte. -/
def lineSegmentsGo : Nat → List Nat → List (List Nat)
  | 0, t => [t]
  | f + 1, t =>
      match memchr 10 t with
      | none => [t]
      | some n => t.take (n + 1) :: lineSegmentsGo f (t.drop (n + 1))

/-- The line segmentation of a text: `n` terminated segments followed by
the unterminated remainder (possibly empty). -/
def lineSegments (t : List Nat) : List (List Nat) := lineSegmentsGo t.length t

/-- Expected observations of `k` successive `read_line` calls given the
remaining segments: each call yields the next segment (with terminator)
and its length; once the segments are exhausted every further call
yields a zero-length result. -/
def c2Expected : List (List Nat) → Nat → List (Except Error Nat × List Nat)
  | _, 0 => []
  | [], k + 1 => (.ok 0, []) :: c2Expected [] k
  | seg :: segs, k + 1 => (.ok seg.length, seg) :: c2Expected segs k

/-- Expected items of the `Lines` iterator given the `read_line`
segmentation: one success item per segment with terminators stripped,
except that an empty unterminated remainder yields no item. -/
def c3Expected : List (List Nat) → List (Except Error (List Nat))
  | [] => []
  | [r] => if r.length = 0 then [] else [.ok (stripLine r)]
  | seg :: segs => .ok (stripLine seg) :: c3Expected segs

/-- Decoded text accumulated over a list of chunks fed one after the
other, threading the decoder state. -/
def outAll : Option Nat → List (List Nat) → List Nat
  | _, [] => []
  | d, c :: cs => (rawFeed d c).out ++ outAll (rawFeed d c).dst cs

/-- A chunking that makes progress from decoder state `d`: every chunk
fits the chunk buffer, decodes without error and completes at least one
character, and the final decoder state holds no dangling partial
character. -/
def chunksOk : Option Nat → List (List Nat) → Bool
  | d, [] => d.isNone
  | d, c :: cs =>
      decide (c.length ≤ CHUNK_SIZE) && (rawFeed d c).err.isNone &&
        !(rawFeed d c).out.isEmpty && chunksOk (rawFeed d c).dst cs

/-
Helper lemmas about the embedding.
-/

theorem rawFeed_nil (d : Option Nat) : rawFeed d [] = ⟨0, none, d, []⟩ := by
  cases d <;> rfl

/-- `_read` on a reader with empty source, empty buffers and empty
pending text: one empty read, an empty feed, then `raw_finish` reports
the decoder state's completeness; nothing changes. -/
theorem read_eof (trap : Trap) (d : Option Nat) (flag : Bool) (buf : List Nat) :
    _read trap ⟨[], d, [], flag, []⟩ buf = (.ok d.isNone, ⟨[], d, [], flag, []⟩, buf) := by
  cases d <;>
    simp [_read, readSrc, rawFeed, feedGo, readFinish, rawFinish, CHUNK_SIZE,
      ERR_INCOMPLETE_SEQ]

/-- `_read` with pending text drains it and resets the flag. -/
theorem read_drain (trap : Trap) (st : TextReader) (buf : List Nat)
    (h : st.textbuf.length > 0) :
    _read trap st buf =
      (.ok st.textbuf_completeseq,
       { st with textbuf := [], textbuf_completeseq := true },
       buf ++ st.textbuf) := by
  simp [_read, h]

/-- An error-free feed consumes its entire input (a dangling partial
character moves into the decoder state). -/
theorem feedGo_consumed_all :
    ∀ (inp : List Nat) (d : Option Nat) (pos cons : Nat),
      (feedGo d inp pos cons).err = none →
      (feedGo d inp pos cons).consumed = pos + inp.length := by
  intro inp
  induction inp with
  | nil => intro d pos cons _; cases d <;> simp [feedGo]
  | cons b rest ih =>
      intro d pos cons h
      cases d with
      | none =>
          simp only [feedGo] at h ⊢
          split_ifs at h ⊢ with h1 h2 h3
          · rw [show ({ feedGo none rest (pos + 1) (pos + 1) with
                out := b :: (feedGo none rest (pos + 1) (pos + 1)).out } : FeedResult).consumed
                = (feedGo none rest (pos + 1) (pos + 1)).consumed from rfl]
            rw [ih none (pos + 1) (pos + 1) (by simpa using h)]
            simp only [List.length_cons]; omega
          · rw [show ({ feedGo none rest (pos + 1) (pos + 1) with
                out := utf8Bytes (0xFF61 + (b - 0xA1)) ++ (feedGo none rest (pos + 1) (pos + 1)).out } : FeedResult).consumed
                = (feedGo none rest (pos + 1) (pos + 1)).consumed from rfl]
            rw [ih none (pos + 1) (pos + 1) (by simpa using h)]
            simp only [List.length_cons]; omega
          · rw [ih (some b) (pos + 1) cons (by simpa using h)]
            simp only [List.length_cons]; omega
      | some l =>
          simp only [feedGo] at h ⊢
          split_ifs at h ⊢ with h1
          · rw [show ({ feedGo none rest (pos + 1) (pos + 1) with
                out := utf8Bytes (sjisDouble l b) ++ (feedGo none rest (pos + 1) (pos + 1)).out } : FeedResult).consumed
                = (feedGo none rest (pos + 1) (pos + 1)).consumed from rfl]
            rw [ih none (pos + 1) (pos + 1) (by simpa using h)]
            simp only [List.length_cons]; omega


/-- `_read` on a fresh reader over a single chunk that decodes without
error: the whole chunk is read, fed and consumed, the decoded text is
appended, and `raw_finish` reports whether a character is dangling. -/
theorem read_init (trap : Trap) (input buf : List Nat)
    (hlen : input.length ≤ CHUNK_SIZE)
    (herr : (rawFeed none input).err = none) :
    _read trap (initTR [.chunk input]) buf =
      (.ok (rawFeed none input).dst.isNone,
       ⟨[], (rawFeed none input).dst, [], true, []⟩,
       buf ++ (rawFeed none input).out) := by
  have hcons : (rawFeed none input).consumed = input.length := by
    simpa using feedGo_consumed_all input none 0 0 herr
  by_cases hni : input = []
  · subst hni
    simp [_read, initTR, readSrc, rawFeed, feedGo, readFinish, rawFinish, CHUNK_SIZE]
  · have hpos : 0 < input.length := List.length_pos.mpr hni
    rcases hfr : rawFeed none input with ⟨c, e, d, o⟩
    rw [hfr] at herr hcons
    simp only at herr hcons ⊢
    subst herr hcons
    simp only [_read, initTR, List.length_nil, gt_iff_lt, lt_self_iff_false, if_false,
      List.nil_append]
    rw [if_pos (show (0:Nat) < CHUNK_SIZE by decide)]
    simp only [readSrc, CHUNK_SIZE, Nat.sub_zero]
    rw [if_pos (by simpa [CHUNK_SIZE] using hlen)]
    simp only [List.nil_append, hfr]
    rw [if_pos hpos, if_neg (lt_irrefl input.length)]
    cases d <;> simp [readFinish, rawFinish, ERR_INCOMPLETE_SEQ]

/-- Decoding a block of NUL bytes yields the same bytes as text, one
character each, with nothing dangling. -/
theorem feedGo_zeros : ∀ (n pos cons : Nat),
    feedGo none (List.replicate n 0) pos cons = ⟨pos + n, none, none, List.replicate n 0⟩ := by
  intro n
  induction n with
  | zero => intro pos cons; simp [feedGo]
  | succ m ih =>
      intro pos cons
      rw [List.replicate_succ]
      simp only [feedGo]
      rw [if_pos (by decide : (0:Nat) < 0x80)]
      rw [ih (pos + 1) (pos + 1)]
      rw [show pos + 1 + m = pos + (m + 1) from by omega, ← List.replicate_succ]

theorem memchr_zeros : ∀ (n : Nat), memchr 10 (List.replicate n 0) = none := by
  intro n
  induction n with
  | zero => rfl
  | succ m ih => rw [List.replicate_succ]; simp [memchr, ih]

/-- `_read` when the single read call raises an I/O error: the error is
returned and the chunk buffer is left resized to `CHUNK_SIZE`,
zero-filled — the truncation in the source is skipped by the early `?`
return on line 143 of `src/lib.rs`. -/
theorem read_ioerr (trap : Trap) (k : ErrKind) (rest : List ReadEvent) (buf : List Nat) :
    _read trap (initTR (.ioerr k :: rest)) buf =
      (.error (.IOError k), ⟨rest, none, [], true, List.replicate CHUNK_SIZE 0⟩, buf) := by
  simp [_read, initTR, readSrc, CHUNK_SIZE]

/-- `_read` on a chunk buffer already holding `CHUNK_SIZE` zero bytes:
no read happens and the zeros decode to `CHUNK_SIZE` NUL characters. -/
theorem read_full_zeros (trap : Trap) (src : List ReadEvent)
    (flag : Bool) (buf : List Nat) :
    _read trap ⟨src, none, [], flag, List.replicate CHUNK_SIZE 0⟩ buf =
      (.ok true, ⟨src, none, [], flag, []⟩, buf ++ List.replicate CHUNK_SIZE 0) := by
  have h2 : ∀ C, rawFeed none (List.replicate C (0:Nat)) = ⟨C, none, none, List.replicate C 0⟩ := by
    intro C; simpa using feedGo_zeros C 0 0
  have hC : 0 < CHUNK_SIZE := by decide
  unfold _read
  generalize hCS : CHUNK_SIZE = C
  rw [hCS] at hC
  simp [h2, readFinish, rawFinish, hC]

/-
Claim theorems.
-/

/-- C1, counterexample: chunk-boundary invariance fails as stated.  The
valid two-byte Shift_JIS input `[0x82, 0xA0]` ("あ") delivered as the two
one-byte chunks `[0x82]`, `[0xA0]` makes `read_to_end` fail with
`CodecError("incomplete sequence")` and append nothing, while the same
bytes delivered in one chunk decode to "あ" with result `Ok(3)`: the
chunked source's first read appends no text while the decoder holds a
dangling lead byte, which `read_to_end` treats as end-of-source
truncation. -/
theorem c1_counterexample :
    (readToEnd strictTrap 5 (initTR [.chunk [0x82], .chunk [0xA0]]) []).map
        (fun r => (r.1, r.2.2)) =
      some (.error (.CodecError ERR_INCOMPLETE_SEQ), []) ∧
    (readToEnd strictTrap 5 (initTR [.chunk [0x82, 0xA0]]) []).map
        (fun r => (r.1, r.2.2)) =
      some (.ok 3, [0xE3, 0x81, 0x82]) := by
  constructor <;> decide

/-- C5 (code bug): the recovery policy is not invoked with the offending
byte range `[consumed, upto)`.  For input `[0x41, 0x80, 0x42, 0x43]` the
decoder consumes `0x41` and reports the offending range `[1, 2)` — the
single byte `0x80` (second conjunct).  The source passes
`&binbuf[..upto]` of the buffer it has already shifted by `offset`
(line 159), handing the trap `[0x80, 0x42]` instead of `[0x80]`, and
then drops only `upto - offset` bytes, so `0x42` is both echoed by the
trap and decoded again: with the echoing policy the output buffer ends
up `[0x41, 0x80, 0x42, 0x42, 0x43]` and the count is 5, where the
specified behaviour would give `[0x41, 0x80, 0x42, 0x43]` and 4.  (For
the input `[0x41, 0x80]` alone the same slice `binbuf[..2]` of the
one-byte shifted buffer is out of bounds and the Rust code panics.) -/
theorem c5_trap_bytes_observed :
    readToEnd echoTrap 6 (initTR [.chunk [0x41, 0x80, 0x42, 0x43]]) [] =
      some (.ok 5, ⟨[], none, [], true, []⟩, [0x41, 0x80, 0x42, 0x42, 0x43]) ∧
    rawFeed none [0x41, 0x80, 0x42, 0x43] =
      ⟨1, some ⟨2, "invalid sequence"⟩, none, [0x41]⟩ := by
  constructor <;> decide

/-- C6 (code bug): an "interrupted" read error is retried but not
transparently.  A source that raises `Interrupted` once and then
delivers `0x41` makes `read_to_end` append `CHUNK_SIZE` NUL characters
followed by "A" and return `CHUNK_SIZE + 1` (= 2049), because the failed
read leaves the chunk buffer resized to `CHUNK_SIZE` zero-filled bytes
(the `truncate` on line 145 of `src/lib.rs` is skipped by the `?` early
return) and the retry decodes those zeros.  A source delivering the same
byte without the interruption returns `Ok(1)` with output "A". -/
theorem c6_interrupted_corrupts_output :
    (readToEnd strictTrap 5 (initTR [.ioerr .Interrupted, .chunk [0x41]]) []).map
        (fun r => (r.1, r.2.2)) =
      some (.ok (CHUNK_SIZE + 1), List.replicate CHUNK_SIZE 0 ++ [0x41]) ∧
    (readToEnd strictTrap 4 (initTR [.chunk [0x41]]) []).map (fun r => (r.1, r.2.2)) =
      some (.ok 1, [0x41]) := by
  constructor
  · have h65 : rawFeed none [0x41] = ⟨1, none, none, [0x41]⟩ := by decide
    have hC : 0 < CHUNK_SIZE := by decide
    have hio := read_ioerr strictTrap ErrKind.Interrupted [ReadEvent.chunk [0x41]] ([] : List Nat)
    have hfz := read_full_zeros strictTrap [ReadEvent.chunk [0x41]] true ([] : List Nat)
    have hri := read_init strictTrap [0x41] (List.replicate CHUNK_SIZE 0) (by decide) (by decide)
    simp only [initTR] at hri
    rw [h65] at hri
    simp only [readToEnd, List.length_nil]
    generalize hCS : CHUNK_SIZE = C
    rw [hCS] at hC hio hfz hri
    have hC0 : ¬ (C = 0) := by omega
    have hC1 : ¬ (C + 1 = C) := by omega
    simp at hri
    simp only [readToEndLoop, hio, hfz, hri, read_eof, Option.isNone_none,
      List.nil_append, List.length_replicate, List.length_append, List.length_cons,
      List.length_nil, Nat.sub_zero]
    simp [hC0, hC1]
  · decide

/-- C7, counterexample: the pending-text completeness flag is not set to
"complete" when the step was not the "incomplete sequence" condition.
On input "a\nb" the decode step is error-free and complete (second
conjunct: the feed consumes everything with no dangling state), the
excess "b" is moved into `textbuf`, and yet `textbuf_completeseq` is set
to `false` ("incomplete") — the source sets the flag to `true` only when
the step's result was an `Err(CodecError("incomplete sequence"))`. -/
theorem c7_counterexample :
    (readLine strictTrap 4 (initTR [.chunk [0x61, 10, 0x62]]) []).map
        (fun r => (r.2.1.textbuf, r.2.1.textbuf_completeseq)) =
      some ([0x62], false) ∧
    rawFeed none [0x61, 10, 0x62] = ⟨3, none, none, [0x61, 10, 0x62]⟩ := by
  constructor <;> decide

/-- C8, counterexample: `read_to_end` on the Shift_JIS bytes of
"あいうえお" returns 15, the number of UTF-8 code units appended
(`String::len` counts bytes), not the 10 input bytes consumed as the
claim states. -/
theorem c8_counterexample :
    (readToEnd strictTrap 5 (initTR [.chunk sjisAiueo]) []).map (fun r => r.1) =
      some (.ok 15) ∧ (15 : Nat) ≠ 10 := by
  constructor <;> decide

/-- C8, amended: `read_to_end` on the Shift_JIS bytes of "あいうえお"
succeeds, appends the 15 UTF-8 code units of the five characters, and
returns 15, the number of output units appended. -/
theorem c8_amended :
    readToEnd strictTrap 5 (initTR [.chunk sjisAiueo]) [] =
      some (.ok 15, ⟨[], none, [], true, []⟩, aiueoUtf8) := by
  decide

/-- C9: when a `read_line` call appends exactly a terminator — "\n" or
"\r\n" — `Lines::next` yields `Some(Ok(""))` rather than ending the
iteration: the emptiness test uses the text before terminator stripping,
so only a call that appends nothing at all ends the sequence. -/
theorem c9_terminator_only_line (trap : Trap) (fuel k : Nat) (st st' : TextReader)
    (s : List Nat) (hrl : readLine trap fuel st [] = some (.ok k, st', s))
    (hs : s = [10] ∨ s = [13, 10]) :
    linesNext trap fuel st = some (some (.ok []), st') := by
  unfold linesNext
  rw [hrl]
  rcases hs with h | h <;> subst h <;> simp [stripLine]

/-- C9, witness: on the input "\n" the `Lines` iterator yields an
empty-string success item. -/
theorem c9_witness :
    readLine strictTrap 4 (initTR [.chunk [10]]) [] =
      some (.ok 1, ⟨[], none, [], true, []⟩, [10]) ∧
    linesNext strictTrap 4 (initTR [.chunk [10]]) =
      some (some (.ok []), ⟨[], none, [], true, []⟩) :=
  ⟨by decide, c9_terminator_only_line strictTrap 4 1 _ _ [10] (by decide) (Or.inl rfl)⟩

/-- C10: when a single `_read` step both appends text containing a line
feed and returns an error, `read_line` finds the line feed first and
returns `Ok` for that line; the step's error is dropped without being
stored anywhere. -/
theorem c10_error_discarded (trap : Trap) (fuel : Nat) (st st1 : TextReader)
    (buf buf1 : List Nat) (e : Error) (n : Nat)
    (hread : _read trap st buf = (.error e, st1, buf1))
    (hnl : memchr 10 (buf1.drop buf.length) = some n) :
    ∃ st2 buf2, readLine trap (fuel + 1) st buf = some (.ok (n + 1), st2, buf2) := by
  have harith : buf.length + n + 1 - buf.length = n + 1 := by omega
  unfold readLine readLineLoop
  rw [hread]
  simp only [hnl]
  split
  · exact ⟨_, _, by rw [harith]⟩
  · exact ⟨_, _, by rw [harith]⟩

/-- C10, witness: on input "a\n" followed by the invalid byte `0xA0` and
two trailing bytes with a strict policy, the decode step errors after
appending "a\n", yet `read_line` returns `Ok(2)`.  The two trailing
bytes keep the error's `upto` (3) within the shifted chunk buffer
(`[0xA0, 0x42, 0x43]`, length 3), so the trap slice `binbuf[..upto]` is
in bounds and the real program takes this same error-return path. -/
theorem c10_witness :
    ∃ st2 buf2,
      readLine strictTrap 4 (initTR [.chunk [0x61, 10, 0xA0, 0x42, 0x43]]) [] =
        some (.ok 2, st2, buf2) :=
  c10_error_discarded strictTrap 3 (initTR [.chunk [0x61, 10, 0xA0, 0x42, 0x43]])
    ⟨[], none, [], true, [0xA0, 0x42, 0x43]⟩ [] [0x61, 10]
    (.CodecError "invalid sequence") 1
    (by decide) (by decide)

/-- C4: for every input that is a valid but truncated prefix (the
decoder consumes it without error but is left holding a dangling partial
character), `read_to_end` fails with `CodecError("incomplete sequence")`
while `read_line` over the same input succeeds, and both deliver all
fully-decodable leading text (the hypothesis that the decoded text holds
no line feed makes the single `read_line` call return all of it). -/
theorem c4_truncated_input (trap : Trap) (input : List Nat) (l : Nat)
    (herr : (rawFeed none input).err = none)
    (hdst : (rawFeed none input).dst = some l)
    (hlen : input.length ≤ CHUNK_SIZE)
    (hnl : memchr 10 (rawFeed none input).out = none) :
    readToEnd trap 3 (initTR [.chunk input]) [] =
      some (.error (.CodecError ERR_INCOMPLETE_SEQ), ⟨[], some l, [], true, []⟩,
        (rawFeed none input).out) ∧
    readLine trap 3 (initTR [.chunk input]) [] =
      some (.ok (rawFeed none input).out.length, ⟨[], some l, [], true, []⟩,
        (rawFeed none input).out) := by
  have hri := read_init trap input [] hlen herr
  rw [hdst] at hri
  simp only [Option.isNone_some, List.nil_append] at hri
  constructor
  · simp only [readToEnd, List.length_nil]
    rw [show (3:Nat) = 2 + 1 from rfl]
    simp only [readToEndLoop, hri]
    by_cases ho : (rawFeed none input).out = []
    · rw [ho]
      simp
    · rw [if_neg (by simpa using ho)]
      simp [read_eof]
  · simp only [readLine, List.length_nil]
    rw [show (3:Nat) = 2 + 1 from rfl]
    simp only [readLineLoop, hri, List.drop_zero, hnl]
    by_cases ho : (rawFeed none input).out = []
    · rw [ho]
      simp
    · have hlo : ¬ ((rawFeed none input).out.length = 0) := by
        simpa [List.length_eq_zero] using ho
      rw [if_neg (fun h => hlo h.symm)]
      simp [read_eof, List.drop_length, memchr]


/-- C4, witness: the input "A" followed by the lone Shift_JIS lead byte
`0x82`. -/
theorem c4_witness :
    ((rawFeed none [0x41, 0x82]).err = none ∧
     (rawFeed none [0x41, 0x82]).dst = some 0x82 ∧
     ([0x41, 0x82] : List Nat).length ≤ CHUNK_SIZE ∧
     memchr 10 (rawFeed none [0x41, 0x82]).out = none) ∧
    (readToEnd strictTrap 3 (initTR [.chunk [0x41, 0x82]]) [] =
      some (.error (.CodecError ERR_INCOMPLETE_SEQ), ⟨[], some 0x82, [], true, []⟩,
        (rawFeed none [0x41, 0x82]).out) ∧
     readLine strictTrap 3 (initTR [.chunk [0x41, 0x82]]) [] =
      some (.ok (rawFeed none [0x41, 0x82]).out.length, ⟨[], some 0x82, [], true, []⟩,
        (rawFeed none [0x41, 0x82]).out)) :=
  ⟨⟨by decide, by decide, by decide, by decide⟩,
   c4_truncated_input strictTrap [0x41, 0x82] 0x82 (by decide) (by decide) (by decide)
     (by decide)⟩

theorem feedGo_nil (d : Option Nat) (p c : Nat) : feedGo d [] p c = ⟨p, none, d, []⟩ := by
  cases d <;> rfl

/-- The decoded text, final state and success of a feed do not depend on
the position counters. -/
theorem feedGo_shift (inp : List Nat) : ∀ (d : Option Nat) (p c p' c' : Nat),
    (feedGo d inp p c).out = (feedGo d inp p' c').out ∧
    (feedGo d inp p c).dst = (feedGo d inp p' c').dst ∧
    (feedGo d inp p c).err.isNone = (feedGo d inp p' c').err.isNone := by
  induction inp with
  | nil => intro d p c p' c'; rw [feedGo_nil, feedGo_nil]; exact ⟨rfl, rfl, rfl⟩
  | cons b rest ih =>
      intro d p c p' c'
      cases d with
      | none =>
          simp only [feedGo]
          split_ifs with h1 h2 h3 <;>
            [skip; skip; skip; exact ⟨rfl, rfl, rfl⟩] <;>
            · obtain ⟨ho, hd, he⟩ := ih none (p + 1) (p + 1) (p' + 1) (p' + 1)
              obtain ⟨ho2, hd2, he2⟩ := ih (some b) (p + 1) c (p' + 1) c'
              exact ⟨by simp [ho, ho2], by simp [hd, hd2], by simp [he, he2]⟩
      | some l =>
          simp only [feedGo]
          split_ifs with h1
          · obtain ⟨ho, hd, he⟩ := ih none (p + 1) (p + 1) (p' + 1) (p' + 1)
            exact ⟨by simp [ho], by simp [hd], by simp [he]⟩
          · exact ⟨rfl, rfl, rfl⟩


/-- Feeding `a ++ b` equals feeding `a` and then feeding `b` from the
resulting decoder state, provided feeding `a` reports no error: the
outputs concatenate and the final state and success are those of the
second feed. -/
theorem feedGo_append (a : List Nat) : ∀ (b : List Nat) (d : Option Nat) (p c : Nat),
    (feedGo d a p c).err = none →
    (feedGo d (a ++ b) p c).out = (feedGo d a p c).out ++ (rawFeed (feedGo d a p c).dst b).out ∧
    (feedGo d (a ++ b) p c).dst = (rawFeed (feedGo d a p c).dst b).dst ∧
    (feedGo d (a ++ b) p c).err.isNone = (rawFeed (feedGo d a p c).dst b).err.isNone := by
  induction a with
  | nil =>
      intro b d p c _
      rw [List.nil_append, feedGo_nil]
      obtain ⟨ho, hd, he⟩ := feedGo_shift b d p c 0 0
      exact ⟨by simpa [rawFeed] using ho, by simpa [rawFeed] using hd,
        by simpa [rawFeed] using he⟩
  | cons x a' ih =>
      intro b d p c herr
      cases d with
      | none =>
          rw [List.cons_append]
          simp only [feedGo] at herr ⊢
          split_ifs at herr ⊢ with h1 h2 h3
          · obtain ⟨ho, hd, he⟩ := ih b none (p + 1) (p + 1) (by simpa using herr)
            exact ⟨by simp [ho], by simp [hd], by simp [he]⟩
          · obtain ⟨ho, hd, he⟩ := ih b none (p + 1) (p + 1) (by simpa using herr)
            exact ⟨by simp [ho], by simp [hd], by simp [he]⟩
          · obtain ⟨ho, hd, he⟩ := ih b (some x) (p + 1) c (by simpa using herr)
            exact ⟨by simp [ho], by simp [hd], by simp [he]⟩
      | some l =>
          rw [List.cons_append]
          simp only [feedGo] at herr ⊢
          split_ifs at herr ⊢ with h1
          · obtain ⟨ho, hd, he⟩ := ih b none (p + 1) (p + 1) (by simpa using herr)
            exact ⟨by simp [ho], by simp [hd], by simp [he]⟩


/-- Under a progressing chunking, the concatenation of the per-chunk
outputs is the decode of the joined input. -/
theorem outAll_join : ∀ (cs : List (List Nat)) (d : Option Nat),
    chunksOk d cs = true → (rawFeed d cs.flatten).out = outAll d cs := by
  intro cs
  induction cs with
  | nil => intro d _; rw [List.flatten_nil]; simp [rawFeed, feedGo_nil, outAll]
  | cons c cs' ih =>
      intro d hok
      simp only [chunksOk, Bool.and_eq_true, decide_eq_true_eq] at hok
      obtain ⟨⟨⟨hlen, herrb⟩, hone⟩, hrest⟩ := hok
      have herr : (rawFeed d c).err = none := by
        cases he : (rawFeed d c).err
        · rfl
        · rw [he] at herrb; simp at herrb
      rw [List.flatten_cons]
      obtain ⟨ho, hd, _⟩ := feedGo_append c cs'.flatten d 0 0 herr
      simp only [outAll]
      rw [show rawFeed d (c ++ cs'.flatten) = feedGo d (c ++ cs'.flatten) 0 0 from rfl, ho]
      rw [show feedGo d c 0 0 = rawFeed d c from rfl]
      rw [ih (rawFeed d c).dst hrest]

/-- `_read` on a reader whose next event is a chunk that decodes without
error: generalisation of `read_init` to a non-empty remaining source and
arbitrary prior decoder state. -/
theorem read_chunk (trap : Trap) (c : List Nat) (rest : List ReadEvent)
    (d : Option Nat) (buf : List Nat)
    (hlen : c.length ≤ CHUNK_SIZE)
    (herr : (rawFeed d c).err = none) :
    _read trap ⟨.chunk c :: rest, d, [], true, []⟩ buf =
      (.ok (rawFeed d c).dst.isNone,
       ⟨rest, (rawFeed d c).dst, [], true, []⟩,
       buf ++ (rawFeed d c).out) := by
  have hcons : (rawFeed d c).consumed = c.length := by
    simpa using feedGo_consumed_all c d 0 0 herr
  by_cases hni : c = []
  · subst hni
    cases d <;>
      simp [_read, readSrc, rawFeed, feedGo, readFinish, rawFinish, CHUNK_SIZE]
  · have hpos : 0 < c.length := List.length_pos.mpr hni
    rcases hfr : rawFeed d c with ⟨cc, e, dd, o⟩
    rw [hfr] at herr hcons
    simp only at herr hcons ⊢
    subst herr hcons
    simp only [_read, List.length_nil, gt_iff_lt, lt_self_iff_false, if_false,
      List.nil_append]
    rw [if_pos (show (0:Nat) < CHUNK_SIZE by decide)]
    simp only [readSrc, CHUNK_SIZE, Nat.sub_zero]
    rw [if_pos (by simpa [CHUNK_SIZE] using hlen)]
    simp only [List.nil_append, hfr]
    rw [if_pos hpos, if_neg (lt_irrefl c.length)]
    cases dd <;> simp [readFinish, rawFinish, ERR_INCOMPLETE_SEQ]

/-- `read_to_end`'s loop over a source of progressing chunks: it
consumes every chunk, appends exactly the concatenated decoded text and
returns its length. -/
theorem readToEnd_chunks : ∀ (cs : List (List Nat)) (d : Option Nat) (trap : Trap)
    (buf : List Nat) (nstr : Nat), chunksOk d cs = true →
    readToEndLoop trap (cs.length + 1) ⟨cs.map .chunk, d, [], true, []⟩ buf nstr buf.length =
      some (.ok (buf.length + (outAll d cs).length - nstr), ⟨[], none, [], true, []⟩,
        buf ++ outAll d cs) := by
  intro cs
  induction cs with
  | nil =>
      intro d trap buf nstr hok
      have hd : d = none := by
        cases d
        · rfl
        · simp [chunksOk] at hok
      subst hd
      simp only [List.map_nil, List.length_nil, readToEndLoop, read_eof, Option.isNone_none]
      simp [outAll]
  | cons c cs' ih =>
      intro d trap buf nstr hok
      simp only [chunksOk, Bool.and_eq_true, decide_eq_true_eq] at hok
      obtain ⟨⟨⟨hlen, herrb⟩, hone⟩, hrest⟩ := hok
      have herr : (rawFeed d c).err = none := by
        cases he : (rawFeed d c).err
        · rfl
        · rw [he] at herrb; simp at herrb
      have honel : (rawFeed d c).out ≠ [] := by
        cases ho : (rawFeed d c).out
        · rw [ho] at hone; simp at hone
        · simp
      simp only [List.map_cons, List.length_cons]
      rw [show cs'.length + 1 + 1 = (cs'.length + 1) + 1 from rfl]
      have hstep := ih (rawFeed d c).dst trap (buf ++ (rawFeed d c).out) nstr hrest
      simp only [readToEndLoop] at hstep
      simp only [readToEndLoop, read_chunk trap c (cs'.map .chunk) d buf hlen herr]
      rw [if_neg (by
        simp only [List.length_append]
        intro h
        exact honel (List.length_eq_zero.mp (by omega)))]
      rw [hstep]
      simp only [outAll, List.append_assoc, List.length_append]
      rw [show buf.length + (rawFeed d c).out.length +
            (outAll (rawFeed d c).dst cs').length =
          buf.length + ((rawFeed d c).out.length + (outAll (rawFeed d c).dst cs').length)
        from by omega]


/-- C1, amended: chunk-boundary invariance holds for every pair of
progressing chunkings of the same byte sequence — chunkings in which
every delivered chunk fits the chunk buffer, decodes without error and
completes at least one character, with no character left dangling at the
end (`chunksOk`).  Both deliveries produce identical results and append
exactly the decoded text of the whole input; one chunk of the whole
(valid, buffer-sized) input is the special case `ds = [cs.flatten]`.
The counterexample forces the progress condition: a chunk that completes
no character while one is pending (for example a lone lead byte) makes
`read_to_end` fail with `CodecError("incomplete sequence")` even though
later chunks complete the character. -/
theorem c1_chunk_invariance_amended (trap : Trap) (cs ds : List (List Nat))
    (hcs : chunksOk none cs = true) (hds : chunksOk none ds = true)
    (hjoin : cs.flatten = ds.flatten) :
    readToEnd trap (cs.length + 1) (initTR (cs.map .chunk)) [] =
      readToEnd trap (ds.length + 1) (initTR (ds.map .chunk)) [] ∧
    readToEnd trap (cs.length + 1) (initTR (cs.map .chunk)) [] =
      some (.ok (rawFeed none cs.flatten).out.length, ⟨[], none, [], true, []⟩,
        (rawFeed none cs.flatten).out) := by
  have h1 := readToEnd_chunks cs none trap [] 0 hcs
  have h2 := readToEnd_chunks ds none trap [] 0 hds
  simp only [List.length_nil, Nat.zero_add, Nat.sub_zero, List.nil_append] at h1 h2
  have ho1 := outAll_join cs none hcs
  have ho2 := outAll_join ds none hds
  simp only [readToEnd, List.length_nil, initTR]
  rw [h1, h2, ← ho1, ← ho2, hjoin]
  exact ⟨rfl, rfl⟩

/-- C1, witness: the bytes "A" + "あ" delivered as `[0x41, 0x82]`,
`[0xA0]` versus as one chunk. -/
theorem c1_witness :
    (chunksOk none [[0x41, 0x82], [0xA0]] = true ∧
     chunksOk none [[0x41, 0x82, 0xA0]] = true ∧
     ([[0x41, 0x82], [0xA0]] : List (List Nat)).flatten =
       ([[0x41, 0x82, 0xA0]] : List (List Nat)).flatten) ∧
    (readToEnd strictTrap 3 (initTR ([[0x41, 0x82], [0xA0]].map .chunk)) [] =
       readToEnd strictTrap 2 (initTR ([[0x41, 0x82, 0xA0]].map .chunk)) [] ∧
     readToEnd strictTrap 3 (initTR ([[0x41, 0x82], [0xA0]].map .chunk)) [] =
       some (.ok (rawFeed none ([[0x41, 0x82], [0xA0]] : List (List Nat)).flatten).out.length,
         ⟨[], none, [], true, []⟩,
         (rawFeed none ([[0x41, 0x82], [0xA0]] : List (List Nat)).flatten).out)) :=
  ⟨⟨by decide, by decide, by decide⟩,
   c1_chunk_invariance_amended strictTrap [[0x41, 0x82], [0xA0]] [[0x41, 0x82, 0xA0]]
     (by decide) (by decide) (by decide)⟩

/-- `_read` never stores pending text when none was pending: only
`read_line` fills `textbuf`. -/
theorem read_textbuf_empty (trap : Trap) (st : TextReader) (buf : List Nat)
    (h : st.textbuf = []) : ((_read trap st buf).2.1).textbuf = [] := by
  unfold _read readFinish
  rw [h]
  simp only [List.length_nil, gt_iff_lt, lt_irrefl, if_false]
  split
  · rename_i st' k heq
    repeat' split at heq
    all_goals first
      | (injection heq with h2
         injection h2 with h3 h4
         subst h3
         rfl)
      | simp at heq
  · rename_i st1 heq
    have h1 : st1.textbuf = [] := by
      repeat' split at heq
      all_goals first
        | (injection heq with h3
           subst h3
           first
           | rfl
           | exact h)
        | simp at heq
    repeat' split
    all_goals simp [h1]


/-- Whenever the `read_line` loop returns with pending text stored (it
was empty on entry), the final iteration found a line feed with excess
decoded text beyond it; the stored text is exactly that excess, the
returned buffer is truncated after the line feed, and the completeness
flag is `true` ("complete") precisely when that iteration's `_read`
result was an `Err(CodecError("incomplete sequence"))`. -/
theorem readLineLoop_move : ∀ (fuel : Nat) (trap : Trap) (st : TextReader)
    (buf : List Nat) (nstr lastlen : Nat) (r : Except Error Nat)
    (st' : TextReader) (buf' : List Nat),
    st.textbuf = [] →
    readLineLoop trap fuel st buf nstr lastlen = some (r, st', buf') →
    st'.textbuf ≠ [] →
    ∃ (stm : TextReader) (bufm : List Nat) (lastm n : Nat)
      (res : Except Error Bool) (st1 : TextReader) (buf1 : List Nat),
      _read trap stm bufm = (res, st1, buf1) ∧
      memchr 10 (buf1.drop lastm) = some n ∧
      lastm + n + 1 < buf1.length ∧
      st'.textbuf = buf1.drop (lastm + n + 1) ∧
      buf' = buf1.take (lastm + n + 1) ∧
      (st'.textbuf_completeseq = true ↔ res = .error (.CodecError ERR_INCOMPLETE_SEQ)) := by
  intro fuel
  induction fuel with
  | zero =>
      intro trap st buf nstr lastlen r st' buf' _ hloop _
      exact absurd hloop (by simp [readLineLoop])
  | succ fuel ih =>
      intro trap st buf nstr lastlen r st' buf' hempty hloop hne
      rcases hread : _read trap st buf with ⟨res, st1, buf1⟩
      have hst1 : st1.textbuf = [] := by
        have hh := read_textbuf_empty trap st buf hempty
        rw [hread] at hh
        exact hh
      simp only [readLineLoop, hread] at hloop
      split at hloop
      · rename_i n hm
        by_cases hlt : lastlen + n + 1 < buf1.length
        · rw [if_pos hlt] at hloop
          simp only [Option.some.injEq, Prod.mk.injEq] at hloop
          obtain ⟨-, h2, h3⟩ := hloop
          subst h2
          subst h3
          refine ⟨st, buf, lastlen, n, res, st1, buf1, hread, hm, hlt, rfl, rfl, ?_⟩
          rcases res with e | c
          · rcases e with k | cause
            · simp
            · simp only []
              constructor
              · intro hc
                simp only [decide_eq_true_eq] at hc
                rw [hc]
              · intro hc
                simp only [Except.error.injEq, Error.CodecError.injEq] at hc
                simp [hc]
          · simp
        · rw [if_neg hlt] at hloop
          simp only [Option.some.injEq, Prod.mk.injEq] at hloop
          obtain ⟨-, h2, -⟩ := hloop
          subst h2
          exact absurd hst1 hne
      · rename_i hm
        split at hloop
        · exact ih trap st1 buf1 nstr buf1.length r st' buf' hst1 hloop hne
        · simp only [Option.some.injEq, Prod.mk.injEq] at hloop
          obtain ⟨-, h2, -⟩ := hloop
          subst h2
          exact absurd hst1 hne
        · simp only [Option.some.injEq, Prod.mk.injEq] at hloop
          obtain ⟨-, h2, -⟩ := hloop
          subst h2
          exact absurd hst1 hne
        · by_cases hl : lastlen = buf1.length
          · rw [if_pos hl] at hloop
            simp only [Option.some.injEq, Prod.mk.injEq] at hloop
            obtain ⟨-, h2, -⟩ := hloop
            subst h2
            exact absurd hst1 hne
          · rw [if_neg hl] at hloop
            exact ih trap st1 buf1 nstr buf1.length r st' buf' hst1 hloop hne

/-- C7, amended: whenever `read_line` (entered with no pending text)
returns having stored excess text in `textbuf`, the storing step's
`textbuf_completeseq` flag is "complete" (`true`) exactly when that
step's `_read` result was an `Err(CodecError("incomplete sequence"))` —
and "incomplete" (`false`) in every other case, including after a
successful complete decode step.  This is the polarity the code
implements, opposite to the claim's. -/
theorem c7_flag_amended (trap : Trap) (fuel : Nat) (st : TextReader)
    (buf : List Nat) (r : Except Error Nat) (st' : TextReader) (buf' : List Nat)
    (hempty : st.textbuf = [])
    (hcall : readLine trap fuel st buf = some (r, st', buf'))
    (hmoved : st'.textbuf ≠ []) :
    ∃ (stm : TextReader) (bufm : List Nat) (lastm n : Nat)
      (res : Except Error Bool) (st1 : TextReader) (buf1 : List Nat),
      _read trap stm bufm = (res, st1, buf1) ∧
      memchr 10 (buf1.drop lastm) = some n ∧
      lastm + n + 1 < buf1.length ∧
      st'.textbuf = buf1.drop (lastm + n + 1) ∧
      buf' = buf1.take (lastm + n + 1) ∧
      (st'.textbuf_completeseq = true ↔ res = .error (.CodecError ERR_INCOMPLETE_SEQ)) :=
  readLineLoop_move fuel trap st buf buf.length buf.length r st' buf' hempty hcall hmoved

/-- C7, witness: on the input "a\nb" the excess "b" is stored with the
flag `false`, and the final iteration's step was a successful complete
decode. -/
theorem c7_witness :
    ((initTR [.chunk [0x61, 10, 0x62]]).textbuf = [] ∧
     readLine strictTrap 4 (initTR [.chunk [0x61, 10, 0x62]]) [] =
       some (.ok 2, ⟨[], none, [0x62], false, []⟩, [0x61, 10]) ∧
     (⟨[], none, [0x62], false, []⟩ : TextReader).textbuf ≠ []) ∧
    (∃ (stm : TextReader) (bufm : List Nat) (lastm n : Nat)
      (res : Except Error Bool) (st1 : TextReader) (buf1 : List Nat),
      _read strictTrap stm bufm = (res, st1, buf1) ∧
      memchr 10 (buf1.drop lastm) = some n ∧
      lastm + n + 1 < buf1.length ∧
      (⟨[], none, [0x62], false, []⟩ : TextReader).textbuf = buf1.drop (lastm + n + 1) ∧
      [0x61, 10] = buf1.take (lastm + n + 1) ∧
      ((⟨[], none, [0x62], false, []⟩ : TextReader).textbuf_completeseq = true ↔
        res = .error (.CodecError ERR_INCOMPLETE_SEQ))) :=
  ⟨⟨rfl, by decide, by decide⟩,
   c7_flag_amended strictTrap 4 (initTR [.chunk [0x61, 10, 0x62]]) [] (.ok 2)
     ⟨[], none, [0x62], false, []⟩ [0x61, 10] rfl (by decide) (by decide)⟩

theorem memchr_bound : ∀ (t : List Nat) (n : Nat), memchr 10 t = some n → n < t.length := by
  intro t
  induction t with
  | nil => intro n h; exact Option.noConfusion h
  | cons x xs ih =>
      intro n h
      simp only [memchr] at h
      split_ifs at h with hx
      · simp only [Option.some.injEq] at h
        subst h
        simp
      · rcases hmm : memchr 10 xs with _ | m
        · rw [hmm] at h; simp at h
        · rw [hmm] at h
          simp at h
          subst h
          have := ih m hmm
          simp only [List.length_cons]
          omega

/-- One-step unfolding of the `read_line` loop. -/
theorem readLineLoop_succ (trap : Trap) (fuel : Nat) (st : TextReader) (buf : List Nat)
    (nstr lastlen : Nat) :
    readLineLoop trap (fuel + 1) st buf nstr lastlen =
      match _read trap st buf with
      | (result, st1, buf1) =>
          let newlen := buf1.length
          match memchr 10 (buf1.drop lastlen) with
          | some n =>
              if lastlen + n + 1 < newlen then
                some (.ok (lastlen + n + 1 - nstr),
                      { st1 with
                          textbuf := buf1.drop (lastlen + n + 1),
                          textbuf_completeseq :=
                            match result with
                            | .error (.CodecError c) => c = ERR_INCOMPLETE_SEQ
                            | _ => false },
                      buf1.take (lastlen + n + 1))
              else some (.ok (lastlen + n + 1 - nstr), st1, buf1)
          | none =>
              match result with
              | .error (.IOError .Interrupted) =>
                  readLineLoop trap fuel st1 buf1 nstr newlen
              | .error (.IOError .UnexpectedEof) =>
                  some (.ok (newlen - nstr), st1, buf1)
              | .error e => some (.error e, st1, buf1)
              | .ok _ =>
                  if lastlen = newlen then some (.ok (newlen - nstr), st1, buf1)
                  else readLineLoop trap fuel st1 buf1 nstr newlen := rfl


/-- One `read_line` call whose first `_read` appends `t` and leaves the
reader with empty buffers and source: the call returns the text up to
and including the first line feed of `t` (moving any excess into
`textbuf` with the flag cleared), or all of `t` when no line feed is
present. -/
theorem readLine_fill (trap : Trap) (st0 : TextReader) (buf t : List Nat)
    (f : Bool) (d : Option Nat)
    (hread : _read trap st0 buf = (.ok f, ⟨[], d, [], true, []⟩, buf ++ t)) :
    readLine trap 4 st0 buf =
      match memchr 10 t with
      | some n =>
          if n + 1 < t.length then
            some (.ok (n + 1), ⟨[], d, t.drop (n + 1), false, []⟩, buf ++ t.take (n + 1))
          else some (.ok (n + 1), ⟨[], d, [], true, []⟩, buf ++ t)
      | none =>
          if t.length = 0 then some (.ok 0, ⟨[], d, [], true, []⟩, buf ++ t)
          else some (.ok t.length, ⟨[], d, [], true, []⟩, buf ++ t) := by
  unfold readLine
  rw [show (4:Nat) = 3 + 1 from rfl, readLineLoop_succ, hread]
  simp only [List.drop_left]
  rcases hm : memchr 10 t with _ | n
  · simp only [hm]
    by_cases ht : t.length = 0
    · have hbt : (buf ++ t).length = buf.length := by simp [List.length_append, ht]
      rw [if_pos hbt.symm]
      simp [hbt, ht]
    · have hne : ¬ (buf.length = (buf ++ t).length) := by
        simp only [List.length_append]
        omega
      rw [if_neg hne]
      rw [show (3:Nat) = 2 + 1 from rfl, readLineLoop_succ, read_eof]
      simp only [List.drop_length, memchr]
      rw [if_pos trivial]
      rw [if_neg ht]
      simp [List.length_append, Nat.add_sub_cancel_left]
  · simp only [hm]
    have hb := memchr_bound t n hm
    by_cases hx : n + 1 < t.length
    · have hcond : buf.length + n + 1 < (buf ++ t).length := by
        simp only [List.length_append]
        omega
      rw [if_pos hcond, if_pos hx]
      have e1 : buf.length + n + 1 = buf.length + (n + 1) := by omega
      rw [e1, List.drop_append, List.take_append, Nat.add_sub_cancel_left]
    · have hcond : ¬ (buf.length + n + 1 < (buf ++ t).length) := by
        simp only [List.length_append]
        omega
      rw [if_neg hcond, if_neg hx]
      have e1 : buf.length + n + 1 = buf.length + (n + 1) := by omega
      rw [e1, Nat.add_sub_cancel_left]


theorem lineSegmentsGo_irrel : ∀ (f : Nat), ∀ (t : List Nat) (g : Nat),
    t.length ≤ f → t.length ≤ g → lineSegmentsGo f t = lineSegmentsGo g t := by
  intro f
  induction f with
  | zero =>
      intro t g hf _
      have ht : t = [] := List.length_eq_zero.mp (Nat.le_zero.mp hf)
      subst ht
      cases g with
      | zero => rfl
      | succ g => simp [lineSegmentsGo, memchr]
  | succ f ihf =>
      intro t g hf hg
      cases g with
      | zero =>
          have ht : t = [] := List.length_eq_zero.mp (Nat.le_zero.mp hg)
          subst ht
          simp [lineSegmentsGo, memchr]
      | succ g =>
          rcases hm : memchr 10 t with _ | n
          · simp [lineSegmentsGo, hm]
          · have hb := memchr_bound t n hm
            have hdl : (t.drop (n + 1)).length ≤ f := by
              simp only [List.length_drop]
              omega
            have hdg : (t.drop (n + 1)).length ≤ g := by
              simp only [List.length_drop]
              omega
            simp only [lineSegmentsGo, hm]
            rw [ihf (t.drop (n + 1)) g hdl hdg]

/-- Unfolding equation of `lineSegments`. -/
theorem lineSegments_eq (t : List Nat) :
    lineSegments t =
      match memchr 10 t with
      | none => [t]
      | some n => t.take (n + 1) :: lineSegments (t.drop (n + 1)) := by
  rcases hm : memchr 10 t with _ | n
  · unfold lineSegments
    cases hl : t.length with
    | zero => simp [lineSegmentsGo]
    | succ m => simp [lineSegmentsGo, hm]
  · have hb := memchr_bound t n hm
    have hpos : 0 < t.length := by omega
    unfold lineSegments
    rcases hl : t.length with _ | m
    · omega
    · simp only [lineSegmentsGo, hm]
      have h1 : (t.drop (n + 1)).length ≤ m := by
        simp only [List.length_drop]
        omega
      rw [lineSegmentsGo_irrel m (t.drop (n + 1)) (t.drop (n + 1)).length h1 le_rfl]

/-- A `read_line` call on a fully drained reader returns zero and
changes nothing. -/
theorem readLine_empty_steady (trap : Trap) (d : Option Nat) (flag : Bool)
    (buf : List Nat) :
    readLine trap 4 ⟨[], d, [], flag, []⟩ buf =
      some (.ok 0, ⟨[], d, [], flag, []⟩, buf) := by
  unfold readLine
  rw [show (4:Nat) = 3 + 1 from rfl, readLineLoop_succ, read_eof]
  simp only [List.drop_length, memchr]
  rw [if_pos trivial]
  simp

theorem c2Expected_nil_seg : ∀ (k : Nat),
    c2Expected [([] : List Nat)] k = c2Expected [] k := by
  intro k
  cases k with
  | zero => rfl
  | succ k => simp [c2Expected]

theorem readLineCalls_empty : ∀ (k : Nat) (trap : Trap) (d : Option Nat) (flag : Bool),
    (readLineCalls trap 4 k ⟨[], d, [], flag, []⟩).map Prod.fst =
      some (c2Expected [] k) := by
  intro k
  induction k with
  | zero => intro trap d flag; rfl
  | succ k ih =>
      intro trap d flag
      simp only [readLineCalls, readLine_empty_steady]
      rcases hrc : readLineCalls trap 4 k ⟨[], d, [], flag, []⟩ with _ | ⟨rs, st2⟩
      · have hcontra := ih trap d flag
        rw [hrc] at hcontra
        simp at hcontra
      · have hthis := ih trap d flag
        rw [hrc] at hthis
        simp at hthis
        simp [c2Expected, hthis]


/-- Repeated `read_line` calls on a reader whose pending text is `t`
(source exhausted, decode state clean) observe exactly the line
segmentation of `t`, then zero-length results. -/
theorem readLineCalls_steady : ∀ (N : Nat) (t : List Nat), t.length ≤ N →
    ∀ (trap : Trap) (flag : Bool) (k : Nat),
    (readLineCalls trap 4 k ⟨[], none, t, flag, []⟩).map Prod.fst =
      some (c2Expected (lineSegments t) k) := by
  intro N
  induction N with
  | zero =>
      intro t hlen trap flag k
      have ht : t = [] := List.length_eq_zero.mp (Nat.le_zero.mp hlen)
      subst ht
      rw [show lineSegments [] = [[]] from rfl, c2Expected_nil_seg]
      exact readLineCalls_empty k trap none flag
  | succ N ihN =>
      intro t hlen trap flag k
      by_cases ht : t = []
      · subst ht
        rw [show lineSegments [] = [[]] from rfl, c2Expected_nil_seg]
        exact readLineCalls_empty k trap none flag
      · cases k with
        | zero => simp [readLineCalls, c2Expected]
        | succ k =>
            have hdr := read_drain trap ⟨[], none, t, flag, []⟩ []
              (by simpa using List.length_pos.mpr ht)
            simp only at hdr
            have hfill := readLine_fill trap ⟨[], none, t, flag, []⟩ [] t flag none
              (by simpa using hdr)
            simp only [readLineCalls]
            rw [hfill]
            rcases hm : memchr 10 t with _ | n
            · simp only [hm]
              rw [if_neg (fun h => ht (List.length_eq_zero.mp h))]
              have hre := readLineCalls_empty k trap none true
              rcases hrc : readLineCalls trap 4 k ⟨[], none, [], true, []⟩ with _ | ⟨rs, st2⟩
              · rw [hrc] at hre; simp at hre
              · rw [hrc] at hre
                simp at hre
                rw [lineSegments_eq t]
                simp only [hm]
                simp [c2Expected, hre, hrc]
            · have hb := memchr_bound t n hm
              simp only [hm]
              by_cases hx : n + 1 < t.length
              · rw [if_pos hx]
                have hlenr : (t.drop (n + 1)).length ≤ N := by
                  simp only [List.length_drop]
                  omega
                have hrec := ihN (t.drop (n + 1)) hlenr trap false k
                rcases hrc : readLineCalls trap 4 k ⟨[], none, t.drop (n + 1), false, []⟩
                  with _ | ⟨rs, st2⟩
                · rw [hrc] at hrec; simp at hrec
                · rw [hrc] at hrec
                  simp at hrec
                  rw [lineSegments_eq t]
                  simp only [hm]
                  simp only [c2Expected, List.nil_append]
                  simp [hrec, hrc, List.length_take, Nat.min_eq_left (by omega : n + 1 ≤ t.length)]
              · rw [if_neg hx]
                have hnp1 : n + 1 = t.length := by omega
                have hdrop : t.drop (n + 1) = [] := by
                  rw [hnp1]
                  exact List.drop_length t
                have htake : t.take (n + 1) = t := by
                  rw [hnp1]
                  exact List.take_length t
                have hre := readLineCalls_empty k trap none true
                rcases hrc : readLineCalls trap 4 k ⟨[], none, [], true, []⟩ with _ | ⟨rs, st2⟩
                · rw [hrc] at hre; simp at hre
                · rw [hrc] at hre
                  simp at hre
                  rw [lineSegments_eq t]
                  simp only [hm]
                  rw [hdrop, show lineSegments [] = [[]] from rfl]
                  simp only [c2Expected, c2Expected_nil_seg]
                  simp [hre, hrc, htake, hnp1]


/-- The first `read_line` call on a fresh reader over one valid chunk
behaves exactly like a call on a reader whose pending text is the
decoded input. -/
theorem readLine_init_eq_steady (trap : Trap) (input buf : List Nat)
    (hv : validB input = true) (hlen : input.length ≤ CHUNK_SIZE) :
    readLine trap 4 (initTR [.chunk input]) buf =
      readLine trap 4 ⟨[], none, decodeOut input, true, []⟩ buf := by
  simp only [validB, Bool.and_eq_true, Option.isNone_iff_eq_none] at hv
  obtain ⟨herr, hdst⟩ := hv
  have hri := read_init trap input buf hlen herr
  rw [hdst] at hri
  simp only [Option.isNone_none] at hri
  have h1 := readLine_fill trap (initTR [.chunk input]) buf (decodeOut input) true none hri
  by_cases ht : decodeOut input = []
  · rw [h1, ht, readLine_empty_steady]
    simp [memchr]
  · have hdr := read_drain trap ⟨[], none, decodeOut input, true, []⟩ buf
      (by simpa using List.length_pos.mpr ht)
    simp only at hdr
    have h2 := readLine_fill trap ⟨[], none, decodeOut input, true, []⟩ buf
      (decodeOut input) true none hdr
    rw [h1, h2]

/-- C2: for every valid input (up to the chunk size, delivered as one
chunk) whose decoded text splits into line-feed-delimited segments,
repeated `read_line` calls return exactly those segments in order, each
with its original terminator bytes and its length as the result, then
the unterminated remainder (possibly empty) exactly once, and every
further call returns a zero-length result (`lineSegments` lists the
terminated segments followed by the remainder; `c2Expected` pads with
`(Ok 0, "")` beyond them). -/
theorem c2_read_line_segments (trap : Trap) (input : List Nat) (k : Nat)
    (hv : validB input = true) (hlen : input.length ≤ CHUNK_SIZE) :
    (readLineCalls trap 4 k (initTR [.chunk input])).map Prod.fst =
      some (c2Expected (lineSegments (decodeOut input)) k) := by
  cases k with
  | zero => cases lineSegments (decodeOut input) <;> rfl
  | succ k =>
      have heq : readLineCalls trap 4 (k + 1) (initTR [.chunk input]) =
          readLineCalls trap 4 (k + 1) ⟨[], none, decodeOut input, true, []⟩ := by
        simp only [readLineCalls]
        rw [readLine_init_eq_steady trap input [] hv hlen]
      rw [heq]
      exact readLineCalls_steady (decodeOut input).length (decodeOut input) le_rfl trap true
        (k + 1)

/-- C2, witness: the repository's own three-line Shift_JIS input,
"あいうえお\nあいうえお\nあいうえお", observed over five calls:
results 16, 16, 15, 0, 0. -/
theorem c2_witness :
    (validB (sjisAiueo ++ [10] ++ sjisAiueo ++ [10] ++ sjisAiueo) = true ∧
     (sjisAiueo ++ [10] ++ sjisAiueo ++ [10] ++ sjisAiueo).length ≤ CHUNK_SIZE) ∧
    (readLineCalls strictTrap 4 5
        (initTR [.chunk (sjisAiueo ++ [10] ++ sjisAiueo ++ [10] ++ sjisAiueo)])).map Prod.fst =
      some (c2Expected
        (lineSegments (decodeOut (sjisAiueo ++ [10] ++ sjisAiueo ++ [10] ++ sjisAiueo))) 5) :=
  ⟨⟨by decide, by decide⟩,
   c2_read_line_segments strictTrap (sjisAiueo ++ [10] ++ sjisAiueo ++ [10] ++ sjisAiueo) 5
     (by decide) (by decide)⟩

/-
C3: the `Lines` iterator.
-/

theorem lineSegments_ne_nil (t : List Nat) : lineSegments t ≠ [] := by
  rw [lineSegments_eq t]
  rcases memchr 10 t with _ | n <;> simp

theorem linesNext_empty (trap : Trap) (d : Option Nat) (flag : Bool) :
    linesNext trap 4 ⟨[], d, [], flag, []⟩ = some (none, ⟨[], d, [], flag, []⟩) := by
  unfold linesNext
  rw [readLine_empty_steady]
  rfl

theorem linesCollect_empty_any (trap : Trap) (k : Nat) (d : Option Nat) (flag : Bool) :
    linesCollect trap 4 k ⟨[], d, [], flag, []⟩ =
      some ([], ⟨[], d, [], flag, []⟩) := by
  cases k with
  | zero => rfl
  | succ k => simp only [linesCollect, linesNext_empty]

theorem linesCollect_succ (trap : Trap) (fuel k : Nat) (st : TextReader) :
    linesCollect trap fuel (k + 1) st =
      match linesNext trap fuel st with
      | none => none
      | some (none, st') => some ([], st')
      | some (some item, st') =>
          match linesCollect trap fuel k st' with
          | none => none
          | some (items, st'') => some (item :: items, st'') := rfl

/-- The `Lines` iterator on a reader whose pending text is `t` (source
exhausted, decode state clean) yields exactly the stripped line
segmentation of `t`, ending on its own after the last segment. -/
theorem linesCollect_steady : ∀ (N : Nat) (t : List Nat), t.length ≤ N →
    ∀ (trap : Trap) (flag : Bool),
    (linesCollect trap 4 ((lineSegments t).length + 1)
        ⟨[], none, t, flag, []⟩).map Prod.fst =
      some (c3Expected (lineSegments t)) := by
  intro N
  induction N with
  | zero =>
      intro t hlen trap flag
      have ht : t = [] := List.length_eq_zero.mp (Nat.le_zero.mp hlen)
      subst ht
      rw [show lineSegments [] = [[]] from rfl, linesCollect_empty_any]
      rfl
  | succ N ihN =>
      intro t hlen trap flag
      by_cases ht : t = []
      · subst ht
        rw [show lineSegments [] = [[]] from rfl, linesCollect_empty_any]
        rfl
      · have hdr := read_drain trap ⟨[], none, t, flag, []⟩ []
          (by simpa using List.length_pos.mpr ht)
        simp only at hdr
        have hfill := readLine_fill trap ⟨[], none, t, flag, []⟩ [] t flag none
          (by simpa using hdr)
        have htp : 0 < t.length := List.length_pos.mpr ht
        rcases hm : memchr 10 t with _ | n
        · have hrl : readLine trap 4 ⟨[], none, t, flag, []⟩ [] =
              some (.ok t.length, ⟨[], none, [], true, []⟩, t) := by
            rw [hfill]
            simp only [hm]
            rw [if_neg (by omega : ¬t.length = 0)]
            simp
          have hln : linesNext trap 4 ⟨[], none, t, flag, []⟩ =
              some (some (.ok (stripLine t)), ⟨[], none, [], true, []⟩) := by
            unfold linesNext
            simp only [hrl]
            rw [if_pos htp]
          rw [lineSegments_eq t]
          simp only [hm]
          rw [linesCollect_succ]
          simp only [hln]
          rw [linesCollect_empty_any]
          simp [c3Expected, List.length_eq_zero, ht]
        · have hb := memchr_bound t n hm
          by_cases hx : n + 1 < t.length
          · have hrl : readLine trap 4 ⟨[], none, t, flag, []⟩ [] =
                some (.ok (n + 1), ⟨[], none, t.drop (n + 1), false, []⟩,
                      t.take (n + 1)) := by
              rw [hfill]
              simp only [hm]
              rw [if_pos hx]
              simp
            have hlt : (t.take (n + 1)).length > 0 := by
              simp only [List.length_take]
              omega
            have hln : linesNext trap 4 ⟨[], none, t, flag, []⟩ =
                some (some (.ok (stripLine (t.take (n + 1)))),
                      ⟨[], none, t.drop (n + 1), false, []⟩) := by
              unfold linesNext
              simp only [hrl]
              rw [if_pos hlt]
            have hlenr : (t.drop (n + 1)).length ≤ N := by
              simp only [List.length_drop]
              omega
            have hrec := ihN (t.drop (n + 1)) hlenr trap false
            rw [lineSegments_eq t]
            simp only [hm]
            rcases hss : lineSegments (t.drop (n + 1)) with _ | ⟨s2, ss2⟩
            · exact absurd hss (lineSegments_ne_nil _)
            · rw [hss] at hrec
              rw [linesCollect_succ]
              simp only [hln]
              rw [show List.length (t.take (n + 1) :: s2 :: ss2) =
                (s2 :: ss2).length + 1 from rfl]
              rcases hrc : linesCollect trap 4 ((s2 :: ss2).length + 1)
                  ⟨[], none, t.drop (n + 1), false, []⟩ with _ | ⟨items, st2⟩
              · rw [hrc] at hrec
                simp at hrec
              · rw [hrc] at hrec
                simp at hrec
                simp [c3Expected, hrec]
          · have hnp1 : n + 1 = t.length := by omega
            have hdrop : t.drop (n + 1) = [] := by
              rw [hnp1]
              exact List.drop_length t
            have htake : t.take (n + 1) = t := by
              rw [hnp1]
              exact List.take_length t
            have hrl : readLine trap 4 ⟨[], none, t, flag, []⟩ [] =
                some (.ok (n + 1), ⟨[], none, [], true, []⟩, t) := by
              rw [hfill]
              simp only [hm]
              rw [if_neg hx]
              simp
            have hln : linesNext trap 4 ⟨[], none, t, flag, []⟩ =
                some (some (.ok (stripLine t)), ⟨[], none, [], true, []⟩) := by
              unfold linesNext
              simp only [hrl]
              rw [if_pos htp]
            rw [lineSegments_eq t]
            simp only [hm]
            rw [hdrop, show lineSegments [] = [[]] from rfl]
            rw [linesCollect_succ]
            simp only [hln]
            rw [linesCollect_empty_any]
            simp [c3Expected, htake]

/-- The `Lines` iterator on a fresh reader over one valid chunk yields the
stripped line segmentation of the decoded input. -/
theorem linesCollect_init (trap : Trap) (input : List Nat)
    (hv : validB input = true) (hlen : input.length ≤ CHUNK_SIZE) :
    (linesCollect trap 4 ((lineSegments (decodeOut input)).length + 1)
        (initTR [.chunk input])).map Prod.fst =
      some (c3Expected (lineSegments (decodeOut input))) := by
  have hnx : linesNext trap 4 (initTR [.chunk input]) =
      linesNext trap 4 ⟨[], none, decodeOut input, true, []⟩ := by
    unfold linesNext
    rw [readLine_init_eq_steady trap input [] hv hlen]
  have heq : linesCollect trap 4 ((lineSegments (decodeOut input)).length + 1)
        (initTR [.chunk input]) =
      linesCollect trap 4 ((lineSegments (decodeOut input)).length + 1)
        ⟨[], none, decodeOut input, true, []⟩ := by
    rw [linesCollect_succ, hnx, linesCollect_succ]
  rw [heq]
  exact linesCollect_steady (decodeOut input).length (decodeOut input) le_rfl trap true

theorem linesNext_none_iff (trap : Trap) (fuel : Nat) (st st' : TextReader) :
    linesNext trap fuel st = some (none, st') ↔
      ∃ k, readLine trap fuel st [] = some (.ok k, st', []) := by
  constructor
  · intro h
    unfold linesNext at h
    split at h
    · exact Option.noConfusion h
    · rename_i a st2 s heq
      split_ifs at h with hs
      · simp at h
      · simp only [Option.some.injEq, Prod.mk.injEq] at h
        obtain ⟨-, h2⟩ := h
        have hs0 : s = [] :=
          List.length_eq_zero.mp (Nat.le_zero.mp (Nat.not_lt.mp hs))
        subst hs0
        rw [h2] at heq
        exact ⟨a, heq⟩
    · simp at h
  · rintro ⟨k, hk⟩
    unfold linesNext
    rw [hk]
    simp

theorem c3ErrReadLine1 :
    readLine strictTrap 4 (initTR [.ioerr .Other, .chunk [97, 10]]) [] =
      some (.error (.IOError .Other),
            ⟨[.chunk [97, 10]], none, [], true, List.replicate CHUNK_SIZE 0⟩,
            []) := by
  unfold readLine
  rw [show (4 : Nat) = 3 + 1 from rfl, readLineLoop_succ, read_ioerr]
  rfl

theorem c3ErrReadLine2 :
    readLine strictTrap 4
        ⟨[.chunk [97, 10]], none, [], true, List.replicate CHUNK_SIZE 0⟩ [] =
      some (.ok (CHUNK_SIZE + 2), ⟨[], none, [], true, []⟩,
            List.replicate CHUNK_SIZE 0 ++ [97, 10]) := by
  have hC : 0 < CHUNK_SIZE := by decide
  have hfr : rawFeed none [97, 10] = ⟨2, none, none, [97, 10]⟩ := by decide
  have hdropC : (List.replicate CHUNK_SIZE (0 : Nat) ++ [97, 10]).drop CHUNK_SIZE =
      [97, 10] := by
    have h := List.drop_left (List.replicate CHUNK_SIZE (0 : Nat)) [97, 10]
    rwa [List.length_replicate] at h
  unfold readLine
  rw [show (4 : Nat) = 3 + 1 from rfl, readLineLoop_succ, read_full_zeros]
  generalize hCS : CHUNK_SIZE = C
  rw [hCS] at hC hdropC
  simp only [List.nil_append, List.length_nil, List.drop_zero, memchr_zeros,
    List.length_replicate]
  rw [if_neg (by omega : ¬(0 = C))]
  rw [show (3 : Nat) = 2 + 1 from rfl, readLineLoop_succ]
  rw [read_chunk strictTrap [97, 10] [] none (List.replicate C 0)
    (by decide) (by rw [hfr])]
  simp only [hfr, hdropC, List.length_append, List.length_replicate,
    List.length_cons, List.length_nil]
  rw [show memchr 10 [97, 10] = some 1 from rfl]
  simp only
  rw [if_neg (by omega)]
  rw [show C + 1 + 1 - 0 = C + 2 by omega]

theorem c3StripErr :
    stripLine (List.replicate CHUNK_SIZE 0 ++ [97, 10]) =
      List.replicate CHUNK_SIZE 0 ++ [97] := by
  have h1 : List.replicate CHUNK_SIZE (0 : Nat) ++ [97, 10] =
      (List.replicate CHUNK_SIZE (0 : Nat) ++ [97]) ++ [10] := by simp
  unfold stripLine
  rw [h1, List.dropLast_concat, List.getLast?_concat, List.getLast?_concat]
  simp

/-- After an I/O error item the iterator goes on: a later advance reads
further and yields a success item (carrying the corrupted zero-fill of
the chunk buffer left by the failed read). -/
theorem c3ErrRun :
    (linesCollect strictTrap 4 3
        (initTR [.ioerr .Other, .chunk [97, 10]])).map Prod.fst =
      some [.error (.IOError .Other),
            .ok (List.replicate CHUNK_SIZE 0 ++ [97])] := by
  have hn1 : linesNext strictTrap 4 (initTR [.ioerr .Other, .chunk [97, 10]]) =
      some (some (.error (.IOError .Other)),
            ⟨[.chunk [97, 10]], none, [], true, List.replicate CHUNK_SIZE 0⟩) := by
    unfold linesNext
    simp only [c3ErrReadLine1]
  have hn2 : linesNext strictTrap 4
        ⟨[.chunk [97, 10]], none, [], true, List.replicate CHUNK_SIZE 0⟩ =
      some (some (.ok (List.replicate CHUNK_SIZE 0 ++ [97])),
            ⟨[], none, [], true, []⟩) := by
    have hpos : (List.replicate CHUNK_SIZE (0 : Nat) ++ [97, 10]).length > 0 := by
      simp
    unfold linesNext
    simp only [c3ErrReadLine2]
    rw [if_pos hpos, c3StripErr]
  show (linesCollect strictTrap 4 (2 + 1)
      (initTR [.ioerr .Other, .chunk [97, 10]])).map Prod.fst = _
  simp only [linesCollect, hn1, hn2, linesNext_empty]
  rfl

/-- C3: the `Lines` iterator (i) on any complete valid single-chunk input
yields one success item per `read_line` segment, in order, with the
trailing line feed (and a preceding carriage return) stripped, and ends
after the last one; (ii) a `read_line` error is yielded as an `Err` item
without closing the sequence — the next advance reads further and can
succeed; (iii) the iterator ends (yields no item) exactly when a
`read_line` call succeeds with empty produced text. -/
theorem c3_lines_iterator :
    (∀ (trap : Trap) (input : List Nat),
        validB input = true → input.length ≤ CHUNK_SIZE →
        (linesCollect trap 4 ((lineSegments (decodeOut input)).length + 1)
            (initTR [.chunk input])).map Prod.fst =
          some (c3Expected (lineSegments (decodeOut input)))) ∧
    ((linesCollect strictTrap 4 3
        (initTR [.ioerr .Other, .chunk [97, 10]])).map Prod.fst =
      some [.error (.IOError .Other),
            .ok (List.replicate CHUNK_SIZE 0 ++ [97])]) ∧
    (∀ (trap : Trap) (fuel : Nat) (st st' : TextReader),
        linesNext trap fuel st = some (none, st') ↔
          ∃ k, readLine trap fuel st [] = some (.ok k, st', [])) :=
  ⟨fun trap input hv hlen => linesCollect_init trap input hv hlen,
   c3ErrRun,
   fun trap fuel st st' => linesNext_none_iff trap fuel st st'⟩

/-- C3, witness: two terminated Shift_JIS lines "あいうえお\nあいうえお\n"
yield exactly two stripped items and then end. -/
theorem c3_witness :
    (validB (sjisAiueo ++ [10] ++ sjisAiueo ++ [10]) = true ∧
     (sjisAiueo ++ [10] ++ sjisAiueo ++ [10]).length ≤ CHUNK_SIZE) ∧
    (linesCollect strictTrap 4
        ((lineSegments (decodeOut (sjisAiueo ++ [10] ++ sjisAiueo ++ [10]))).length + 1)
        (initTR [.chunk (sjisAiueo ++ [10] ++ sjisAiueo ++ [10])])).map Prod.fst =
      some (c3Expected (lineSegments (decodeOut (sjisAiueo ++ [10] ++ sjisAiueo ++ [10])))) :=
  ⟨⟨by decide, by decide⟩,
   c3_lines_iterator.1 strictTrap (sjisAiueo ++ [10] ++ sjisAiueo ++ [10])
     (by decide) (by decide)⟩

end Textstream
